import Mathlib

/-
Verification of the DeltaHedger core (DeltaHedger.py): the restriction
registry (add_restriction / is_allowed_option) and the greedy portfolio
adjustment optimizer (find_optimal_portfolio_adjustment).

Python floats are modelled as exact rationals, Python int() as truncation
toward zero, the Python set of restriction tuples as a duplicate-free list,
and a Python ZeroDivisionError as an explicit error value.
-/

namespace DeltaHedger

/-- A Python value held in a restriction-rule field or passed as a query
argument: a numeric strike, or a string (expiration code or option type).
Equality across the two constructors is false, as Python == between a float
and a str. -/
inductive PyVal where
  | num (q : ℚ)
  | str (s : String)
deriving DecidableEq, Repr

/-- A restriction tuple as stored in `restricted_combinations`:
(strike, expiration, option type), with `none` meaning wildcard. -/
abbrev Rule := Option PyVal × Option PyVal × Option PyVal

/-- One field of a rule matched against a query argument: a match when the
field is `None` or equal to the argument. -/
def fieldMatches (field : Option PyVal) (arg : PyVal) : Bool :=
  match field with
  | none => true
  | some v => arg = v

/-- One stored rule matched against a query on all three dimensions, as the
body of the loop in `is_allowed_option`. -/
def ruleMatches (r : Rule) (strike expiration opt_type : PyVal) : Bool :=
  fieldMatches r.1 strike && fieldMatches r.2.1 expiration && fieldMatches r.2.2 opt_type

/-- `is_allowed_option`: scan the stored rules, returning false on the first
rule matching on all three dimensions, true when none matches. -/
def is_allowed_option (restricted : List Rule) (strike expiration opt_type : PyVal) : Bool :=
  match restricted with
  | [] => true
  | r :: rest =>
    if ruleMatches r strike expiration opt_type then false
    else is_allowed_option rest strike expiration opt_type

/-- `add_restriction`: insert the tuple into the registry with Python set
semantics (nothing happens when it is already present). The arguments are
stored as given with no validation. -/
def add_restriction (restricted : List Rule)
    (strike expiration opt_type : Option PyVal) : List Rule :=
  if (strike, expiration, opt_type) ∈ restricted then restricted
  else restricted ++ [(strike, expiration, opt_type)]

/-- Truncation toward zero on a rational, as Python int() applied to the
quotient of two floats. -/
def pyint (q : ℚ) : ℤ :=
  if 0 ≤ q then ⌊q⌋ else ⌈q⌉

/-- The action field of a working candidate record. -/
inductive Action where
  | REDUCE
  | NEW
deriving DecidableEq, Repr

/-- One entry of `all_possibilities`: contract identity, action kind,
remaining maximum quantity, and per-unit delta and gamma impact. -/
structure Candidate where
  contract : ℕ
  action : Action
  max_quantity : ℚ
  delta_impact_per_unit : ℚ
  gamma_impact_per_unit : ℚ
deriving DecidableEq, Repr

/-- The quantity the loop would use for one candidate:
min(abs(int(needed_delta / delta_impact_per_unit)), max_quantity).
`none` models the ZeroDivisionError Python raises when
`delta_impact_per_unit` is zero. -/
def candQuantity (remaining : ℚ) (c : Candidate) : Option ℚ :=
  if c.delta_impact_per_unit = 0 then none
  else some (min ((|pyint (remaining / c.delta_impact_per_unit)| : ℤ) : ℚ) c.max_quantity)

/-- The composite score of a candidate at a given quantity:
abs(delta_after) * 2 + abs(quantity * gamma_impact_per_unit) * 3 +
quantity * 0.1, with delta_after = remaining - quantity * delta_impact_per_unit. -/
def scoreOf (remaining : ℚ) (c : Candidate) (q : ℚ) : ℚ :=
  |remaining - q * c.delta_impact_per_unit| * 2
    + |q * c.gamma_impact_per_unit| * 3
    + q * (1 / 10)

/-- The inner for loop over `all_possibilities`: the first candidate with the
strictly smallest score, together with its position, quantity and score.
`none` models the ZeroDivisionError raised while scanning (some candidate has
zero delta impact); `some none` means every candidate was skipped with
quantity 0, so `best_adjustment` stays `None`. -/
def bestAdjustment (remaining : ℚ) : List Candidate → Option (Option (ℕ × Candidate × ℚ × ℚ))
  | [] => some none
  | c :: rest =>
    match candQuantity remaining c with
    | none => none
    | some q =>
      if q = 0 then
        (bestAdjustment remaining rest).map (Option.map (fun r => (r.1 + 1, r.2)))
      else
        match bestAdjustment remaining rest with
        | none => none
        | some none => some (some (0, c, q, scoreOf remaining c q))
        | some (some (j, c2, q2, s2)) =>
          if s2 < scoreOf remaining c q then some (some (j + 1, c2, q2, s2))
          else some (some (0, c, q, scoreOf remaining c q))

/-- The outcome of one execution of the while-loop body (including the loop
condition): `done` when the condition fails, `err` on a ZeroDivisionError,
`noViable` when no candidate yields a usable quantity (the loop breaks), and
otherwise the selected index, candidate and quantity together with the updated
remaining delta and candidate list. -/
inductive StepResult where
  | done
  | err
  | noViable
  | chosen (i : ℕ) (c : Candidate) (q : ℚ) (remaining2 : ℚ) (cands2 : List Candidate)
deriving DecidableEq, Repr

/-- One execution of the body of the greedy while loop of
`find_optimal_portfolio_adjustment`: select the best adjustment, update the
remaining delta, decrement or remove the used candidate (a REDUCE candidate is
updated in place and removed once its max_quantity reaches zero or below; a
NEW candidate is removed unconditionally). -/
def stepOnce (threshold remaining : ℚ) (cands : List Candidate) : StepResult :=
  if |remaining| > threshold ∧ cands ≠ [] then
    match bestAdjustment remaining cands with
    | none => .err
    | some none => .noViable
    | some (some (i, c, q, _)) =>
      let c2 : Candidate := { c with max_quantity := c.max_quantity - q }
      let cands2 :=
        if c.action = Action.REDUCE then
          if c2.max_quantity ≤ 0 then (cands.set i c2).erase c2 else cands.set i c2
        else cands.erase c
      .chosen i c q (remaining - q * c.delta_impact_per_unit) cands2
  else .done

/-- The outcome of the greedy loop: the recorded adjustment list, the number
of executed loop-body iterations and the final remaining delta on a normal
return; `zeroDiv` when an uncaught ZeroDivisionError propagates; `outOfFuel`
never occurs for the fuel `planAdjustments` supplies. -/
inductive PlanResult where
  | ok (adjustments : List (ℕ × ℚ)) (iters : ℕ) (remaining : ℚ)
  | zeroDiv
  | outOfFuel
deriving DecidableEq, Repr

/-- The greedy while loop, driven by `stepOnce`: each selected candidate is
recorded as (contract, quantity) for a NEW candidate and (contract,
-quantity) for a REDUCE candidate. -/
def hedgeLoop (threshold : ℚ) : ℕ → ℚ → List Candidate → List (ℕ × ℚ) → ℕ → PlanResult
  | 0, _, _, _, _ => .outOfFuel
  | fuel + 1, remaining, cands, acc, n =>
    match stepOnce threshold remaining cands with
    | .done => .ok acc n remaining
    | .err => .zeroDiv
    | .noViable => .ok acc (n + 1) remaining
    | .chosen _ c q remaining2 cands2 =>
      hedgeLoop threshold fuel remaining2 cands2
        (acc ++ [(c.contract, if c.action = Action.NEW then q else -q)]) (n + 1)

/-- An upper bound on the number of loop iterations, used as fuel: every
accepted iteration either removes a candidate or decrements the max_quantity
of one candidate by a positive integer. -/
def quantityMeasure (cands : List Candidate) : ℕ :=
  (cands.map (fun c => (⌈c.max_quantity⌉).toNat + 1)).sum

/-- The greedy optimization loop of `find_optimal_portfolio_adjustment`
(lines 139-198), over an already-built candidate list:
remaining_delta starts at -current_delta and the loop runs while
|remaining_delta| exceeds the threshold and candidates remain. -/
def planAdjustments (current_delta threshold : ℚ) (cands : List Candidate) : PlanResult :=
  hedgeLoop threshold (quantityMeasure cands + 1) (-current_delta) cands [] 0

/-- A tradable existing position as `find_optimal_portfolio_adjustment` reads
it: contract identity, signed quantity, and position-level delta and gamma. -/
structure PositionInfo where
  contract : ℕ
  quantity : ℚ
  delta : ℚ
  gamma : ℚ
deriving DecidableEq, Repr

/-- One row of the available options chain: contract identity and per-unit
delta and gamma. -/
structure ChainRow where
  contract : ℕ
  delta : ℚ
  gamma : ℚ
deriving DecidableEq, Repr

/-- The REDUCE candidate built from one tradable position; `none` models the
ZeroDivisionError Python raises dividing by a zero position quantity. -/
def reduceCandidate (p : PositionInfo) : Option Candidate :=
  if p.quantity = 0 then none
  else some
    { contract := p.contract
      action := Action.REDUCE
      max_quantity := |p.quantity|
      delta_impact_per_unit := -(p.delta / p.quantity)
      gamma_impact_per_unit := -(p.gamma / p.quantity) }

/-- The NEW candidate built from one options-chain row, with the fixed
max_quantity of 100. -/
def newCandidate (row : ChainRow) : Candidate :=
  { contract := row.contract
    action := Action.NEW
    max_quantity := 100
    delta_impact_per_unit := row.delta
    gamma_impact_per_unit := row.gamma }

/-- The first loop of `find_optimal_portfolio_adjustment`: one REDUCE
candidate per tradable position, in position order; a ZeroDivisionError from
any position aborts the build. -/
def buildReduceCandidates : List PositionInfo → Option (List Candidate)
  | [] => some []
  | p :: ps =>
    match reduceCandidate p, buildReduceCandidates ps with
    | some c, some cs => some (c :: cs)
    | _, _ => none

/-- `all_possibilities` as built by `find_optimal_portfolio_adjustment`:
adjustments to existing positions first, then potential new positions from the
chain. -/
def buildCandidates (positions : List PositionInfo) (chain : List ChainRow) :
    Option (List Candidate) :=
  (buildReduceCandidates positions).map (fun l => l ++ chain.map newCandidate)

/-- `find_optimal_portfolio_adjustment`: build the candidate list from the
tradable positions and the available chain, then run the greedy loop. -/
def find_optimal_portfolio_adjustment (current_delta threshold : ℚ)
    (positions : List PositionInfo) (chain : List ChainRow) : Option PlanResult :=
  (buildCandidates positions chain).map (planAdjustments current_delta threshold)

/-- The total quantity magnitude the returned adjustments attribute to the
contract x. -/
def spentOn (adjs : List (ℕ × ℚ)) (x : ℕ) : ℚ :=
  (adjs.map (fun a => if a.1 = x then |a.2| else 0)).sum

/-- The total remaining max_quantity the candidate list carries for the
contract x. -/
def capOn (cands : List Candidate) (x : ℕ) : ℚ :=
  (cands.map (fun c => if c.contract = x then c.max_quantity else 0)).sum

/-- How many returned adjustments name the contract x. -/
def usesOn (adjs : List (ℕ × ℚ)) (x : ℕ) : ℕ :=
  (adjs.map (fun a => if a.1 = x then 1 else 0)).sum

/-- How many candidates in the list carry the contract x. -/
def candCount (cands : List Candidate) (x : ℕ) : ℕ :=
  (cands.map (fun c => if c.contract = x then 1 else 0)).sum

lemma is_allowed_eq_false_iff (restricted : List Rule) (s e t : PyVal) :
    is_allowed_option restricted s e t = false ↔
      ∃ r ∈ restricted, ruleMatches r s e t = true := by
  induction restricted with
  | nil => simp [is_allowed_option]
  | cons r rest ih =>
    by_cases h : ruleMatches r s e t = true
    · simp [is_allowed_option, h]
    · simp only [is_allowed_option, if_neg h, ih, List.mem_cons]
      constructor
      · rintro ⟨r', hr', hm⟩
        exact ⟨r', Or.inr hr', hm⟩
      · rintro ⟨r', hr' | hr', hm⟩
        · exact absurd (hr' ▸ hm) h
        · exact ⟨r', hr', hm⟩

lemma ruleMatches_iff (r : Rule) (s e t : PyVal) :
    ruleMatches r s e t = true ↔
      (r.1 = none ∨ r.1 = some s) ∧ (r.2.1 = none ∨ r.2.1 = some e) ∧
        (r.2.2 = none ∨ r.2.2 = some t) := by
  rcases r with ⟨f1, f2, f3⟩
  simp only [ruleMatches, Bool.and_eq_true]
  constructor
  · rintro ⟨⟨h1, h2⟩, h3⟩
    refine ⟨?_, ?_, ?_⟩
    · cases f1 with
      | none => exact Or.inl rfl
      | some v => simp [fieldMatches] at h1; exact Or.inr (by rw [h1])
    · cases f2 with
      | none => exact Or.inl rfl
      | some v => simp [fieldMatches] at h2; exact Or.inr (by rw [h2])
    · cases f3 with
      | none => exact Or.inl rfl
      | some v => simp [fieldMatches] at h3; exact Or.inr (by rw [h3])
  · rintro ⟨h1, h2, h3⟩
    refine ⟨⟨?_, ?_⟩, ?_⟩
    · rcases h1 with h | h <;> subst h <;> simp [fieldMatches]
    · rcases h2 with h | h <;> subst h <;> simp [fieldMatches]
    · rcases h3 with h | h <;> subst h <;> simp [fieldMatches]

/-- C1: `is_allowed_option` returns false exactly when some stored rule
matches on all three dimensions, a rule field matching when it is absent
(wildcard) or exactly equal to the corresponding argument; in particular the
empty registry allows every input. -/
theorem is_allowed_false_iff_matching_rule (restricted : List Rule) (s e t : PyVal) :
    (is_allowed_option restricted s e t = false ↔
      ∃ r ∈ restricted,
        (r.1 = none ∨ r.1 = some s) ∧ (r.2.1 = none ∨ r.2.1 = some e) ∧
          (r.2.2 = none ∨ r.2.2 = some t)) ∧
    is_allowed_option [] s e t = true := by
  constructor
  · rw [is_allowed_eq_false_iff]
    constructor
    · rintro ⟨r, hr, hm⟩
      exact ⟨r, hr, (ruleMatches_iff r s e t).mp hm⟩
    · rintro ⟨r, hr, hm⟩
      exact ⟨r, hr, (ruleMatches_iff r s e t).mpr hm⟩
  · rfl

/-- C8, counterexample: a call with a string where a numeric strike belongs is
not rejected; the ill-typed value is silently stored and takes effect. -/
theorem add_restriction_accepts_ill_typed :
    add_restriction [] (some (PyVal.str "not a strike")) none none
        = [(some (PyVal.str "not a strike"), none, none)] ∧
      is_allowed_option [(some (PyVal.str "not a strike"), none, none)]
        (PyVal.str "not a strike") (PyVal.str "20240119") (PyVal.str "P") = false := by
  exact ⟨rfl, rfl⟩

/-- C8, amended: `add_restriction` performs no validation at all; any
(well- or ill-typed, possibly absent) arguments are stored as given, the call
always succeeds, and the registry grows by one rule or stays the same size
(exactly when the rule is already present). -/
theorem add_restriction_unconditional (restricted : List Rule)
    (s e t : Option PyVal) :
    (s, e, t) ∈ add_restriction restricted s e t ∧
      ((add_restriction restricted s e t).length = restricted.length ∨
        (add_restriction restricted s e t).length = restricted.length + 1) ∧
      ((add_restriction restricted s e t).length = restricted.length ↔
        (s, e, t) ∈ restricted) := by
  unfold add_restriction
  by_cases h : (s, e, t) ∈ restricted
  · simp [h]
  · simp [h]

/-- C10: adding a restriction only shrinks the allowed set: a query denied
before `add_restriction` is still denied afterwards, and any query whose
answer changes goes from allowed to denied. -/
theorem add_restriction_shrinks_allowed (restricted : List Rule) (rule : Rule)
    (s e t : PyVal) :
    (is_allowed_option restricted s e t = false →
      is_allowed_option (add_restriction restricted rule.1 rule.2.1 rule.2.2) s e t = false) ∧
    (is_allowed_option (add_restriction restricted rule.1 rule.2.1 rule.2.2) s e t ≠
        is_allowed_option restricted s e t →
      is_allowed_option restricted s e t = true ∧
        is_allowed_option (add_restriction restricted rule.1 rule.2.1 rule.2.2) s e t = false) := by
  have hmono : is_allowed_option restricted s e t = false →
      is_allowed_option (add_restriction restricted rule.1 rule.2.1 rule.2.2) s e t = false := by
    intro h
    rw [is_allowed_eq_false_iff] at h ⊢
    obtain ⟨r, hr, hm⟩ := h
    refine ⟨r, ?_, hm⟩
    unfold add_restriction
    split
    · exact hr
    · exact List.mem_append_left _ hr
  refine ⟨hmono, fun hne => ?_⟩
  rcases hb : is_allowed_option restricted s e t with _ | _
  · exact absurd (by rw [hmono hb, hb]) hne
  · refine ⟨rfl, ?_⟩
    rcases ha : is_allowed_option (add_restriction restricted rule.1 rule.2.1 rule.2.2) s e t with _ | _
    · rfl
    · exact absurd (by rw [ha, hb]) hne

lemma ceilEval (q : ℚ) : ⌈q⌉ = -⌊-q⌋ := by
  simp [Int.floor_neg]

lemma pyintEval (q : ℚ) : pyint q = if 0 ≤ q then ⌊q⌋ else -⌊-q⌋ := by
  unfold pyint
  split <;> simp [Int.floor_neg]

lemma newNeReduce : (Action.NEW = Action.REDUCE) = False := by
  simp only [eq_iff_iff, iff_false]
  exact fun h => Action.noConfusion h

lemma reduceEqReduce : (Action.REDUCE = Action.REDUCE) = True := by
  simp

lemma reduceNeNew : (Action.REDUCE = Action.NEW) = False := by
  simp only [eq_iff_iff, iff_false]
  exact fun h => Action.noConfusion h

lemma hedgeLoop_succ_done (t : ℚ) (fuel : ℕ) (r : ℚ) (cands : List Candidate)
    (acc : List (ℕ × ℚ)) (n : ℕ) (h : stepOnce t r cands = .done) :
    hedgeLoop t (fuel + 1) r cands acc n = .ok acc n r := by
  simp [hedgeLoop, h]

lemma hedgeLoop_succ_err (t : ℚ) (fuel : ℕ) (r : ℚ) (cands : List Candidate)
    (acc : List (ℕ × ℚ)) (n : ℕ) (h : stepOnce t r cands = .err) :
    hedgeLoop t (fuel + 1) r cands acc n = .zeroDiv := by
  simp [hedgeLoop, h]

lemma hedgeLoop_succ_noViable (t : ℚ) (fuel : ℕ) (r : ℚ) (cands : List Candidate)
    (acc : List (ℕ × ℚ)) (n : ℕ) (h : stepOnce t r cands = .noViable) :
    hedgeLoop t (fuel + 1) r cands acc n = .ok acc (n + 1) r := by
  simp [hedgeLoop, h]

lemma hedgeLoop_succ_chosen (t : ℚ) (fuel : ℕ) (r : ℚ) (cands : List Candidate)
    (acc : List (ℕ × ℚ)) (n : ℕ) (i : ℕ) (c : Candidate) (q r2 : ℚ)
    (cands2 : List Candidate) (h : stepOnce t r cands = .chosen i c q r2 cands2) :
    hedgeLoop t (fuel + 1) r cands acc n =
      hedgeLoop t fuel r2 cands2
        (acc ++ [(c.contract, if c.action = Action.NEW then q else -q)]) (n + 1) := by
  simp [hedgeLoop, h]

/-- C4: a candidate whose per-unit delta impact is exactly zero is not
skipped: the quantity computation divides by it and the resulting
ZeroDivisionError propagates out of the planning call. -/
theorem zero_impact_candidate_faults :
    planAdjustments (-1) (1 / 50) [⟨0, Action.NEW, 100, 0, 0⟩] = .zeroDiv := by
  norm_num [planAdjustments, quantityMeasure, hedgeLoop, stepOnce, bestAdjustment,
    candQuantity, ceilEval, abs_of_nonneg]

/-- C9: with no tradable positions and no chain candidates the planning call
returns an empty adjustment sequence after zero loop iterations, whatever the
current delta and threshold are. -/
theorem plan_empty_returns_nothing (current_delta threshold : ℚ) :
    find_optimal_portfolio_adjustment current_delta threshold [] [] =
      some (.ok [] 0 (-current_delta)) := by
  have hb : buildCandidates [] [] = some [] := rfl
  simp [find_optimal_portfolio_adjustment, hb, planAdjustments, hedgeLoop, stepOnce]

/-- C3, counterexample: for a candidate whose delta impact points against the
remaining delta the code computes min(|trunc(remaining / impact)|, max) = 1,
while min(|floor(remaining / impact)|, max) = 2 as the claim states it. -/
theorem quantity_formula_floor_cex :
    candQuantity (3 / 10) ⟨0, Action.NEW, 100, -(1 / 5), 0⟩ = some 1 ∧
      min ((|(⌊(3 / 10 : ℚ) / (-(1 / 5) : ℚ)⌋ : ℤ)| : ℤ) : ℚ)
        ((⟨0, Action.NEW, 100, -(1 / 5), 0⟩ : Candidate).max_quantity) = 2 := by
  constructor
  · norm_num [candQuantity, pyintEval, ceilEval, abs_of_nonneg, abs_of_nonpos]
  · norm_num

/-- C5, counterexample: with one NEW candidate whose delta impact opposes the
needed correction, the single accepted iteration moves the remaining delta
from 3/10 to 3/5, strictly increasing its magnitude instead of terminating. -/
theorem accepted_step_can_worsen_cex :
    planAdjustments (-(3 / 10)) (1 / 50) [⟨0, Action.NEW, 100, -(3 / 10), 0⟩] =
        .ok [(0, 1)] 1 (3 / 5) ∧
      ¬ |(3 / 5 : ℚ)| ≤ |(3 / 10 : ℚ)| := by
  constructor
  · have h1 : stepOnce (1 / 50) (3 / 10) [⟨0, Action.NEW, 100, -(3 / 10), 0⟩] =
        .chosen 0 ⟨0, Action.NEW, 100, -(3 / 10), 0⟩ 1 (3 / 5) [] := by
      norm_num [stepOnce, bestAdjustment, candQuantity, pyintEval, scoreOf, ceilEval,
        List.erase, abs_of_nonneg, abs_of_nonpos, newNeReduce]
    have h2 : stepOnce (1 / 50) (3 / 5) ([] : List Candidate) = .done := by
      norm_num [stepOnce]
    have efuel : quantityMeasure [(⟨0, Action.NEW, 100, -(3 / 10), 0⟩ : Candidate)] = 100 + 1 := by
      norm_num [quantityMeasure, ceilEval]
      try rfl
    unfold planAdjustments
    rw [efuel, show -(-(3 / 10) : ℚ) = 3 / 10 by norm_num,
      hedgeLoop_succ_chosen _ _ _ _ _ _ _ _ _ _ _ h1,
      show (100 + 1 : ℕ) = 99 + 1 + 1 from rfl,
      hedgeLoop_succ_done _ _ _ _ _ _ h2]
    norm_num [newNeReduce]
  · norm_num [abs_of_nonneg]

/-- C6, counterexample: one REDUCE candidate with max_quantity 10 and delta
impact opposing the needed correction is selected in four consecutive
iterations, so the loop body runs four times with an initial candidate set of
size one. -/
theorem iter_bound_candidate_count_cex :
    planAdjustments (-(3 / 10)) (1 / 50) [⟨0, Action.REDUCE, 10, -(3 / 10), 0⟩] =
        .ok [(0, -1), (0, -2), (0, -4), (0, -3)] 4 (33 / 10) ∧
      ([(⟨0, Action.REDUCE, 10, -(3 / 10), 0⟩ : Candidate)]).length = 1 ∧ ¬ (4 : ℕ) ≤ 1 := by
  refine ⟨?_, rfl, by norm_num⟩
  have h1 : stepOnce (1 / 50) (3 / 10) [⟨0, Action.REDUCE, 10, -(3 / 10), 0⟩] =
      .chosen 0 ⟨0, Action.REDUCE, 10, -(3 / 10), 0⟩ 1 (3 / 5)
        [⟨0, Action.REDUCE, 9, -(3 / 10), 0⟩] := by
    norm_num [stepOnce, bestAdjustment, candQuantity, pyintEval, scoreOf, ceilEval,
      List.erase, abs_of_nonneg, abs_of_nonpos, reduceEqReduce]
  have h2 : stepOnce (1 / 50) (3 / 5) [⟨0, Action.REDUCE, 9, -(3 / 10), 0⟩] =
      .chosen 0 ⟨0, Action.REDUCE, 9, -(3 / 10), 0⟩ 2 (6 / 5)
        [⟨0, Action.REDUCE, 7, -(3 / 10), 0⟩] := by
    norm_num [stepOnce, bestAdjustment, candQuantity, pyintEval, scoreOf, ceilEval,
      List.erase, abs_of_nonneg, abs_of_nonpos, reduceEqReduce]
  have h3 : stepOnce (1 / 50) (6 / 5) [⟨0, Action.REDUCE, 7, -(3 / 10), 0⟩] =
      .chosen 0 ⟨0, Action.REDUCE, 7, -(3 / 10), 0⟩ 4 (12 / 5)
        [⟨0, Action.REDUCE, 3, -(3 / 10), 0⟩] := by
    norm_num [stepOnce, bestAdjustment, candQuantity, pyintEval, scoreOf, ceilEval,
      List.erase, abs_of_nonneg, abs_of_nonpos, reduceEqReduce]
  have h4 : stepOnce (1 / 50) (12 / 5) [⟨0, Action.REDUCE, 3, -(3 / 10), 0⟩] =
      .chosen 0 ⟨0, Action.REDUCE, 3, -(3 / 10), 0⟩ 3 (33 / 10) [] := by
    norm_num [stepOnce, bestAdjustment, candQuantity, pyintEval, scoreOf, ceilEval,
      List.erase, abs_of_nonneg, abs_of_nonpos, reduceEqReduce]
  have h5 : stepOnce (1 / 50) (33 / 10) ([] : List Candidate) = .done := by
    norm_num [stepOnce]
  have efuel : quantityMeasure [(⟨0, Action.REDUCE, 10, -(3 / 10), 0⟩ : Candidate)] = 10 + 1 := by
    norm_num [quantityMeasure, ceilEval]
    try rfl
  unfold planAdjustments
  rw [efuel, show -(-(3 / 10) : ℚ) = 3 / 10 by norm_num,
    hedgeLoop_succ_chosen _ _ _ _ _ _ _ _ _ _ _ h1,
    show (10 + 1 : ℕ) = 9 + 1 + 1 from rfl,
    hedgeLoop_succ_chosen _ _ _ _ _ _ _ _ _ _ _ h2,
    show (9 + 1 : ℕ) = 8 + 1 + 1 from rfl,
    hedgeLoop_succ_chosen _ _ _ _ _ _ _ _ _ _ _ h3,
    show (8 + 1 : ℕ) = 7 + 1 + 1 from rfl,
    hedgeLoop_succ_chosen _ _ _ _ _ _ _ _ _ _ _ h4,
    show (7 + 1 : ℕ) = 6 + 1 + 1 from rfl,
    hedgeLoop_succ_done _ _ _ _ _ _ h5]
  norm_num [reduceNeNew]

lemma bestAdjustment_allSkipped (r : ℚ) (cands : List Candidate)
    (h : bestAdjustment r cands = some none) :
    ∀ (j : ℕ) (cj : Candidate), cands[j]? = some cj → candQuantity r cj = some 0 := by
  induction cands with
  | nil =>
    intro j cj hj
    simp at hj
  | cons c0 rest ih =>
    intro j cj hj
    cases hq : candQuantity r c0 with
    | none =>
      simp [bestAdjustment, hq] at h
    | some q0 =>
      simp only [bestAdjustment, hq] at h
      by_cases h0 : q0 = 0
      · rw [if_pos h0] at h
        cases hb : bestAdjustment r rest with
        | none =>
          rw [hb] at h
          simp at h
        | some ob =>
          rw [hb] at h
          cases ob with
          | none =>
            cases j with
            | zero =>
              rw [List.getElem?_cons_zero] at hj
              obtain rfl : c0 = cj := Option.some.inj hj
              rw [hq, h0]
            | succ j' =>
              rw [List.getElem?_cons_succ] at hj
              exact ih hb j' cj hj
          | some v =>
            simp at h
      · rw [if_neg h0] at h
        cases hb : bestAdjustment r rest with
        | none =>
          rw [hb] at h
          simp at h
        | some ob =>
          rw [hb] at h
          cases ob with
          | none => simp at h
          | some v =>
            obtain ⟨j2, c2, q2, s2⟩ := v
            by_cases hlt : s2 < scoreOf r c0 q0
            · simp [hlt] at h
            · simp [hlt] at h

lemma bestAdjustment_spec (r : ℚ) (cands : List Candidate) (i : ℕ) (c : Candidate) (q s : ℚ)
    (h : bestAdjustment r cands = some (some (i, c, q, s))) :
    cands[i]? = some c ∧ candQuantity r c = some q ∧ q ≠ 0 ∧ s = scoreOf r c q ∧
      ∀ (j : ℕ) (cj : Candidate) (qj : ℚ), cands[j]? = some cj → candQuantity r cj = some qj →
        qj ≠ 0 → s ≤ scoreOf r cj qj ∧ (j < i → s < scoreOf r cj qj) := by
  induction cands generalizing i c q s with
  | nil => simp [bestAdjustment] at h
  | cons c0 rest ih =>
    cases hq : candQuantity r c0 with
    | none => simp [bestAdjustment, hq] at h
    | some q0 =>
      simp only [bestAdjustment, hq] at h
      by_cases h0 : q0 = 0
      · rw [if_pos h0] at h
        rcases hb : bestAdjustment r rest with _ | ⟨_ | ⟨i2, c2, q2, s2⟩⟩
        · rw [hb] at h
          simp at h
        · rw [hb] at h
          simp at h
        · rw [hb] at h
          simp only [Option.map_some'] at h
          obtain ⟨rfl, rfl, rfl, rfl⟩ : i2 + 1 = i ∧ c2 = c ∧ q2 = q ∧ s2 = s := by
            simpa using h
          obtain ⟨g1, g2, g3, g4, g5⟩ := ih i2 c2 q2 s2 hb
          refine ⟨by rw [List.getElem?_cons_succ]; exact g1, g2, g3, g4, ?_⟩
          intro j cj qj hj hcq hqj
          cases j with
          | zero =>
            rw [List.getElem?_cons_zero] at hj
            obtain rfl : c0 = cj := Option.some.inj hj
            rw [hq] at hcq
            obtain rfl : q0 = qj := Option.some.inj hcq
            exact absurd h0 hqj
          | succ j2 =>
            rw [List.getElem?_cons_succ] at hj
            have hg := g5 j2 cj qj hj hcq hqj
            exact ⟨hg.1, fun hlt => hg.2 (Nat.lt_of_succ_lt_succ hlt)⟩
      · rw [if_neg h0] at h
        rcases hb : bestAdjustment r rest with _ | ⟨_ | ⟨i2, c2, q2, s2⟩⟩
        · rw [hb] at h
          simp at h
        · rw [hb] at h
          simp only [] at h
          obtain ⟨rfl, rfl, rfl, rfl⟩ : 0 = i ∧ c0 = c ∧ q0 = q ∧ scoreOf r c0 q0 = s := by
            simpa using h
          refine ⟨by rw [List.getElem?_cons_zero], hq, h0, rfl, ?_⟩
          intro j cj qj hj hcq hqj
          cases j with
          | zero =>
            rw [List.getElem?_cons_zero] at hj
            obtain rfl : c0 = cj := Option.some.inj hj
            rw [hq] at hcq
            obtain rfl : q0 = qj := Option.some.inj hcq
            exact ⟨le_refl _, fun hlt => absurd hlt (Nat.not_lt_zero _)⟩
          | succ j2 =>
            rw [List.getElem?_cons_succ] at hj
            have hsk := bestAdjustment_allSkipped r rest hb j2 cj hj
            rw [hsk] at hcq
            exact absurd (Option.some.inj hcq).symm hqj
        · by_cases hlt : s2 < scoreOf r c0 q0
          · rw [hb] at h
            simp only [if_pos hlt] at h
            obtain ⟨rfl, rfl, rfl, rfl⟩ : i2 + 1 = i ∧ c2 = c ∧ q2 = q ∧ s2 = s := by
              simpa using h
            obtain ⟨g1, g2, g3, g4, g5⟩ := ih i2 c2 q2 s2 hb
            refine ⟨by rw [List.getElem?_cons_succ]; exact g1, g2, g3, g4, ?_⟩
            intro j cj qj hj hcq hqj
            cases j with
            | zero =>
              rw [List.getElem?_cons_zero] at hj
              obtain rfl : c0 = cj := Option.some.inj hj
              rw [hq] at hcq
              obtain rfl : q0 = qj := Option.some.inj hcq
              exact ⟨le_of_lt hlt, fun _ => hlt⟩
            | succ j2 =>
              rw [List.getElem?_cons_succ] at hj
              have hg := g5 j2 cj qj hj hcq hqj
              exact ⟨hg.1, fun hlt2 => hg.2 (Nat.lt_of_succ_lt_succ hlt2)⟩
          · rw [hb] at h
            simp only [if_neg hlt] at h
            obtain ⟨rfl, rfl, rfl, rfl⟩ : 0 = i ∧ c0 = c ∧ q0 = q ∧ scoreOf r c0 q0 = s := by
              simpa using h
            obtain ⟨g1, g2, g3, g4, g5⟩ := ih i2 c2 q2 s2 hb
            have hle : scoreOf r c0 q0 ≤ s2 := le_of_not_lt hlt
            refine ⟨by rw [List.getElem?_cons_zero], hq, h0, rfl, ?_⟩
            intro j cj qj hj hcq hqj
            cases j with
            | zero =>
              rw [List.getElem?_cons_zero] at hj
              obtain rfl : c0 = cj := Option.some.inj hj
              rw [hq] at hcq
              obtain rfl : q0 = qj := Option.some.inj hcq
              exact ⟨le_refl _, fun hlt2 => absurd hlt2 (Nat.not_lt_zero _)⟩
            | succ j2 =>
              rw [List.getElem?_cons_succ] at hj
              have hg := g5 j2 cj qj hj hcq hqj
              exact ⟨le_trans hle hg.1, fun hlt2 => absurd hlt2 (Nat.not_lt_zero _)⟩

lemma stepOnce_chosen_inv (t r : ℚ) (cands : List Candidate) (i : ℕ) (c : Candidate)
    (q r2 : ℚ) (cands2 : List Candidate)
    (h : stepOnce t r cands = .chosen i c q r2 cands2) :
    bestAdjustment r cands = some (some (i, c, q, scoreOf r c q)) ∧
      r2 = r - q * c.delta_impact_per_unit ∧
      cands2 = (if c.action = Action.REDUCE then
          (if c.max_quantity - q ≤ 0
            then (cands.set i { c with max_quantity := c.max_quantity - q }).erase
              { c with max_quantity := c.max_quantity - q }
            else cands.set i { c with max_quantity := c.max_quantity - q })
        else cands.erase c) := by
  unfold stepOnce at h
  by_cases hcond : |r| > t ∧ cands ≠ []
  · rw [if_pos hcond] at h
    rcases hbest : bestAdjustment r cands with _ | ⟨_ | ⟨i2, c2, q2, s2⟩⟩ <;> rw [hbest] at h
    · simp at h
    · simp at h
    · simp only [StepResult.chosen.injEq] at h
      obtain ⟨hi, hcc, hqq, hr2, hc2⟩ := h
      subst hi
      subst hcc
      subst hqq
      obtain ⟨g1, g2, g3, g4, g5⟩ := bestAdjustment_spec r cands _ _ _ _ hbest
      exact ⟨by rw [g4], hr2.symm, hc2.symm⟩
  · rw [if_neg hcond] at h
    simp at h

lemma candQuantity_inv (r : ℚ) (c : Candidate) (q : ℚ)
    (h : candQuantity r c = some q) :
    c.delta_impact_per_unit ≠ 0 ∧
      q = min ((|pyint (r / c.delta_impact_per_unit)| : ℤ) : ℚ) c.max_quantity := by
  unfold candQuantity at h
  by_cases himp : c.delta_impact_per_unit = 0
  · rw [if_pos himp] at h
    simp at h
  · rw [if_neg himp] at h
    exact ⟨himp, (Option.some.inj h).symm⟩

lemma sum_map_set {α M : Type} [AddCommMonoid M] (g : α → M) :
    ∀ (l : List α) (i : ℕ) (a b : α), l[i]? = some b →
      ((l.set i a).map g).sum + g b = (l.map g).sum + g a := by
  intro l
  induction l with
  | nil =>
    intro i a b h
    simp at h
  | cons x xs ih =>
    intro i a b h
    cases i with
    | zero =>
      rw [List.getElem?_cons_zero] at h
      obtain rfl : x = b := Option.some.inj h
      simp only [List.set_cons_zero, List.map_cons, List.sum_cons]
      abel
    | succ i2 =>
      rw [List.getElem?_cons_succ] at h
      simp only [List.set_cons_succ, List.map_cons, List.sum_cons]
      have hx := ih i2 a b h
      calc g x + ((xs.set i2 a).map g).sum + g b
          = g x + (((xs.set i2 a).map g).sum + g b) := by rw [add_assoc]
        _ = g x + ((xs.map g).sum + g a) := by rw [hx]
        _ = g x + (xs.map g).sum + g a := by rw [add_assoc]

lemma sum_map_erase {α M : Type} [DecidableEq α] [AddCommMonoid M] (g : α → M)
    (l : List α) (a : α) (h : a ∈ l) :
    ((l.erase a).map g).sum + g a = (l.map g).sum := by
  obtain ⟨l1, l2, _, rfl, he⟩ := List.exists_erase_eq h
  rw [he]
  simp only [List.map_append, List.sum_append, List.map_cons, List.sum_cons]
  abel

lemma length_pos_of_getElem? {α : Type} (l : List α) (i : ℕ) (a : α)
    (h : l[i]? = some a) : i < l.length :=
  (List.getElem?_eq_some.mp h).1

lemma stepOnce_measure_lt (t r : ℚ) (cands : List Candidate) (i : ℕ) (c : Candidate)
    (q r2 : ℚ) (cands2 : List Candidate)
    (h : stepOnce t r cands = .chosen i c q r2 cands2) :
    quantityMeasure cands2 < quantityMeasure cands := by
  obtain ⟨hbest, _, hc2⟩ := stepOnce_chosen_inv t r cands i c q r2 cands2 h
  obtain ⟨g1, g2, g3, _, _⟩ := bestAdjustment_spec r cands i c q _ hbest
  obtain ⟨himp, hqmin⟩ := candQuantity_inv r c q g2
  have hilen : i < cands.length := length_pos_of_getElem? cands i c g1
  by_cases hact : c.action = Action.REDUCE
  · rw [hc2, if_pos hact]
    by_cases hle : c.max_quantity - q ≤ 0
    · rw [if_pos hle]
      have hmemset : ({ c with max_quantity := c.max_quantity - q } : Candidate) ∈
          cands.set i ({ c with max_quantity := c.max_quantity - q } : Candidate) := by
        refine List.getElem?_mem (List.getElem?_set_eq_of_lt _ hilen)
      have h1 := sum_map_erase (fun y : Candidate => (⌈y.max_quantity⌉).toNat + 1)
        (cands.set i ({ c with max_quantity := c.max_quantity - q } : Candidate))
        ({ c with max_quantity := c.max_quantity - q } : Candidate) hmemset
      have h2 := sum_map_set (fun y : Candidate => (⌈y.max_quantity⌉).toNat + 1)
        cands i ({ c with max_quantity := c.max_quantity - q } : Candidate) c g1
      unfold quantityMeasure
      simp only [] at h1 h2 ⊢
      omega
    · rw [if_neg hle]
      have h2 := sum_map_set (fun y : Candidate => (⌈y.max_quantity⌉).toNat + 1)
        cands i ({ c with max_quantity := c.max_quantity - q } : Candidate) c g1
      have hqlt : q < c.max_quantity := by
        have := not_le.mp hle
        linarith
      have hqk : q = ((|pyint (r / c.delta_impact_per_unit)| : ℤ) : ℚ) := by
        rcases le_total ((|pyint (r / c.delta_impact_per_unit)| : ℤ) : ℚ) c.max_quantity with hk | hk
        · rw [hqmin, min_eq_left hk]
        · exfalso
          rw [hqmin, min_eq_right hk] at hqlt
          exact lt_irrefl _ hqlt
      have hm1 : 1 ≤ |pyint (r / c.delta_impact_per_unit)| := by
        rcases lt_or_le 0 (|pyint (r / c.delta_impact_per_unit)|) with hp | hp
        · omega
        · exfalso
          have hz : |pyint (r / c.delta_impact_per_unit)| = 0 := le_antisymm hp (abs_nonneg _)
          rw [hz] at hqk
          simp at hqk
          exact g3 hqk
      have hceil : ⌈({ c with max_quantity := c.max_quantity - q } : Candidate).max_quantity⌉ =
          ⌈c.max_quantity⌉ - |pyint (r / c.delta_impact_per_unit)| := by
        show ⌈c.max_quantity - q⌉ = _
        rw [hqk]
        exact Int.ceil_sub_int c.max_quantity _
      have hpos : 1 ≤ ⌈({ c with max_quantity := c.max_quantity - q } : Candidate).max_quantity⌉ := by
        have hq0 : (0:ℚ) < ({ c with max_quantity := c.max_quantity - q } : Candidate).max_quantity := by
          show (0:ℚ) < c.max_quantity - q
          linarith [not_le.mp hle]
        exact Int.ceil_pos.mpr hq0
      unfold quantityMeasure
      simp only [] at h2 hceil hpos ⊢
      omega
  · rw [hc2, if_neg hact]
    have hmem : c ∈ cands := List.getElem?_mem g1
    have h1 := sum_map_erase (fun y : Candidate => (⌈y.max_quantity⌉).toNat + 1) cands c hmem
    unfold quantityMeasure
    simp only [] at h1 ⊢
    omega

lemma hedgeLoop_no_outOfFuel (t : ℚ) :
    ∀ (fuel : ℕ) (r : ℚ) (cands : List Candidate) (acc : List (ℕ × ℚ)) (n : ℕ),
      quantityMeasure cands < fuel →
      hedgeLoop t fuel r cands acc n ≠ .outOfFuel := by
  intro fuel
  induction fuel with
  | zero =>
    intro r cands acc n hlt
    exact absurd hlt (by omega)
  | succ fuel ih =>
    intro r cands acc n hlt
    rcases hs : stepOnce t r cands with _ | _ | _ | ⟨i, c, q, r2, cands2⟩
    · rw [hedgeLoop_succ_done t fuel r cands acc n hs]
      simp
    · rw [hedgeLoop_succ_err t fuel r cands acc n hs]
      simp
    · rw [hedgeLoop_succ_noViable t fuel r cands acc n hs]
      simp
    · rw [hedgeLoop_succ_chosen t fuel r cands acc n i c q r2 cands2 hs]
      refine ih r2 cands2 _ (n + 1) ?_
      have hd := stepOnce_measure_lt t r cands i c q r2 cands2 hs
      omega

lemma planAdjustments_never_outOfFuel (d t : ℚ) (cands : List Candidate) :
    planAdjustments d t cands ≠ .outOfFuel := by
  unfold planAdjustments
  exact hedgeLoop_no_outOfFuel t (quantityMeasure cands + 1) (-d) cands [] 0 (by omega)

lemma hedgeLoop_ok_iters (t : ℚ) :
    ∀ (fuel : ℕ) (r : ℚ) (cands : List Candidate) (acc : List (ℕ × ℚ)) (n : ℕ)
      (adjs : List (ℕ × ℚ)) (iters : ℕ) (rf : ℚ),
      hedgeLoop t fuel r cands acc n = .ok adjs iters rf →
      iters ≤ n + quantityMeasure cands + 1 := by
  intro fuel
  induction fuel with
  | zero =>
    intro r cands acc n adjs iters rf h
    simp [hedgeLoop] at h
  | succ fuel ih =>
    intro r cands acc n adjs iters rf h
    rcases hs : stepOnce t r cands with _ | _ | _ | ⟨i, c, q, r2, cands2⟩
    · rw [hedgeLoop_succ_done t fuel r cands acc n hs] at h
      obtain ⟨-, hiters, -⟩ : acc = adjs ∧ n = iters ∧ r = rf := by
        simpa using h
      omega
    · rw [hedgeLoop_succ_err t fuel r cands acc n hs] at h
      simp at h
    · rw [hedgeLoop_succ_noViable t fuel r cands acc n hs] at h
      obtain ⟨-, hiters, -⟩ : acc = adjs ∧ n + 1 = iters ∧ r = rf := by
        simpa using h
      omega
    · rw [hedgeLoop_succ_chosen t fuel r cands acc n i c q r2 cands2 hs] at h
      have hd := stepOnce_measure_lt t r cands i c q r2 cands2 hs
      have := ih r2 cands2 _ (n + 1) adjs iters rf h
      omega

lemma capOn_nonneg (cands : List Candidate) (x : ℕ)
    (hmax : ∀ c ∈ cands, 0 ≤ c.max_quantity) : 0 ≤ capOn cands x := by
  refine List.sum_nonneg ?_
  intro y hy
  obtain ⟨c, hc, rfl⟩ := List.mem_map.mp hy
  by_cases hcx : c.contract = x
  · simpa [hcx] using hmax c hc
  · simp [hcx]

lemma spentOn_append (acc : List (ℕ × ℚ)) (a : ℕ × ℚ) (x : ℕ) :
    spentOn (acc ++ [a]) x = spentOn acc x + (if a.1 = x then |a.2| else 0) := by
  simp [spentOn]

lemma usesOn_append (acc : List (ℕ × ℚ)) (a : ℕ × ℚ) (x : ℕ) :
    usesOn (acc ++ [a]) x = usesOn acc x + (if a.1 = x then 1 else 0) := by
  simp [usesOn]

lemma chosen_quantity_bounds (t r : ℚ) (cands : List Candidate) (i : ℕ) (c : Candidate)
    (q r2 : ℚ) (cands2 : List Candidate)
    (h : stepOnce t r cands = .chosen i c q r2 cands2)
    (hmax : 0 ≤ c.max_quantity) :
    0 ≤ q ∧ q ≤ c.max_quantity := by
  obtain ⟨hbest, -, -⟩ := stepOnce_chosen_inv t r cands i c q r2 cands2 h
  obtain ⟨-, g2, -, -, -⟩ := bestAdjustment_spec r cands i c q _ hbest
  obtain ⟨-, hqmin⟩ := candQuantity_inv r c q g2
  constructor
  · rw [hqmin]
    have : (0:ℚ) ≤ ((|pyint (r / c.delta_impact_per_unit)| : ℤ) : ℚ) := by
      exact_mod_cast abs_nonneg _
    exact le_min this hmax
  · rw [hqmin]
    exact min_le_right _ _

lemma chosen_capOn (t r : ℚ) (cands : List Candidate) (i : ℕ) (c : Candidate)
    (q r2 : ℚ) (cands2 : List Candidate) (x : ℕ)
    (h : stepOnce t r cands = .chosen i c q r2 cands2)
    (hmax : ∀ y ∈ cands, 0 ≤ y.max_quantity) :
    capOn cands2 x + (if c.contract = x then q else 0) ≤ capOn cands x ∧
      ∀ y ∈ cands2, 0 ≤ y.max_quantity := by
  obtain ⟨hbest, -, hc2⟩ := stepOnce_chosen_inv t r cands i c q r2 cands2 h
  obtain ⟨g1, -, -, -, -⟩ := bestAdjustment_spec r cands i c q _ hbest
  have hmem : c ∈ cands := List.getElem?_mem g1
  have hilen : i < cands.length := length_pos_of_getElem? cands i c g1
  obtain ⟨hq0, hqle⟩ := chosen_quantity_bounds t r cands i c q r2 cands2 h (hmax c hmem)
  by_cases hact : c.action = Action.REDUCE
  · rw [if_pos hact] at hc2
    by_cases hle : c.max_quantity - q ≤ 0
    · rw [if_pos hle] at hc2
      have hmemset : ({ c with max_quantity := c.max_quantity - q } : Candidate) ∈
          cands.set i ({ c with max_quantity := c.max_quantity - q } : Candidate) :=
        List.getElem?_mem (List.getElem?_set_eq_of_lt _ hilen)
      have hset := sum_map_set (fun y : Candidate => if y.contract = x then y.max_quantity else 0)
        cands i ({ c with max_quantity := c.max_quantity - q } : Candidate) c g1
      have her := sum_map_erase (fun y : Candidate => if y.contract = x then y.max_quantity else 0)
        (cands.set i ({ c with max_quantity := c.max_quantity - q } : Candidate))
        ({ c with max_quantity := c.max_quantity - q } : Candidate) hmemset
      constructor
      · rw [hc2]
        unfold capOn
        simp only [] at hset her ⊢
        by_cases hcx : c.contract = x
        · simp only [if_pos hcx] at hset her ⊢
          linarith
        · simp only [if_neg hcx] at hset her ⊢
          linarith
      · intro y hy
        rw [hc2] at hy
        rcases List.mem_or_eq_of_mem_set (List.mem_of_mem_erase hy) with hy2 | rfl
        · exact hmax y hy2
        · show (0:ℚ) ≤ c.max_quantity - q
          linarith
    · rw [if_neg hle] at hc2
      have hset := sum_map_set (fun y : Candidate => if y.contract = x then y.max_quantity else 0)
        cands i ({ c with max_quantity := c.max_quantity - q } : Candidate) c g1
      constructor
      · rw [hc2]
        unfold capOn
        simp only [] at hset ⊢
        by_cases hcx : c.contract = x
        · simp only [if_pos hcx] at hset ⊢
          linarith
        · simp only [if_neg hcx] at hset ⊢
          linarith
      · intro y hy
        rw [hc2] at hy
        rcases List.mem_or_eq_of_mem_set hy with hy2 | rfl
        · exact hmax y hy2
        · show (0:ℚ) ≤ c.max_quantity - q
          linarith
  · rw [if_neg hact] at hc2
    have her := sum_map_erase (fun y : Candidate => if y.contract = x then y.max_quantity else 0)
      cands c hmem
    constructor
    · rw [hc2]
      unfold capOn
      simp only [] at her ⊢
      by_cases hcx : c.contract = x
      · simp only [if_pos hcx] at her ⊢
        linarith
      · simp only [if_neg hcx] at her ⊢
        linarith
    · intro y hy
      rw [hc2] at hy
      exact hmax y (List.mem_of_mem_erase hy)

lemma hedgeLoop_spent (t : ℚ) (x : ℕ) :
    ∀ (fuel : ℕ) (r : ℚ) (cands : List Candidate) (acc : List (ℕ × ℚ)) (n : ℕ)
      (adjs : List (ℕ × ℚ)) (iters : ℕ) (rf : ℚ),
      (∀ y ∈ cands, 0 ≤ y.max_quantity) →
      hedgeLoop t fuel r cands acc n = .ok adjs iters rf →
      spentOn adjs x ≤ spentOn acc x + capOn cands x := by
  intro fuel
  induction fuel with
  | zero =>
    intro r cands acc n adjs iters rf hmax h
    simp [hedgeLoop] at h
  | succ fuel ih =>
    intro r cands acc n adjs iters rf hmax h
    rcases hs : stepOnce t r cands with _ | _ | _ | ⟨i, c, q, r2, cands2⟩
    · rw [hedgeLoop_succ_done t fuel r cands acc n hs] at h
      obtain ⟨rfl, -, -⟩ : acc = adjs ∧ n = iters ∧ r = rf := by simpa using h
      linarith [capOn_nonneg cands x hmax]
    · rw [hedgeLoop_succ_err t fuel r cands acc n hs] at h
      simp at h
    · rw [hedgeLoop_succ_noViable t fuel r cands acc n hs] at h
      obtain ⟨rfl, -, -⟩ : acc = adjs ∧ n + 1 = iters ∧ r = rf := by simpa using h
      linarith [capOn_nonneg cands x hmax]
    · rw [hedgeLoop_succ_chosen t fuel r cands acc n i c q r2 cands2 hs] at h
      obtain ⟨hcap, hmax2⟩ := chosen_capOn t r cands i c q r2 cands2 x hs hmax
      have hq0 : 0 ≤ q := by
        obtain ⟨hbest, -, -⟩ := stepOnce_chosen_inv t r cands i c q r2 cands2 hs
        obtain ⟨g1, -, -, -, -⟩ := bestAdjustment_spec r cands i c q _ hbest
        exact (chosen_quantity_bounds t r cands i c q r2 cands2 hs
          (hmax c (List.getElem?_mem g1))).1
      have hrec := ih r2 cands2
        (acc ++ [(c.contract, if c.action = Action.NEW then q else -q)]) (n + 1)
        adjs iters rf hmax2 h
      rw [spentOn_append] at hrec
      have habs : |if c.action = Action.NEW then q else -q| = q := by
        split
        · exact abs_of_nonneg hq0
        · rw [abs_neg]
          exact abs_of_nonneg hq0
      rw [habs] at hrec
      by_cases hcx : c.contract = x
      · rw [if_pos hcx] at hrec
        rw [if_pos hcx] at hcap
        linarith
      · rw [if_neg hcx] at hrec
        rw [if_neg hcx] at hcap
        linarith

lemma chosen_candCount (t r : ℚ) (cands : List Candidate) (i : ℕ) (c : Candidate)
    (q r2 : ℚ) (cands2 : List Candidate) (x : ℕ)
    (h : stepOnce t r cands = .chosen i c q r2 cands2)
    (hnew : ∀ y ∈ cands, y.contract = x → y.action = Action.NEW) :
    candCount cands2 x + (if c.contract = x then 1 else 0) ≤ candCount cands x ∧
      ∀ y ∈ cands2, y.contract = x → y.action = Action.NEW := by
  obtain ⟨hbest, -, hc2⟩ := stepOnce_chosen_inv t r cands i c q r2 cands2 h
  obtain ⟨g1, -, -, -, -⟩ := bestAdjustment_spec r cands i c q _ hbest
  have hmem : c ∈ cands := List.getElem?_mem g1
  have hilen : i < cands.length := length_pos_of_getElem? cands i c g1
  by_cases hcx : c.contract = x
  · have hcnew : c.action = Action.NEW := hnew c hmem hcx
    have hactne : ¬ c.action = Action.REDUCE := by
      rw [hcnew]
      exact fun hcon => Action.noConfusion hcon
    rw [if_neg hactne] at hc2
    have her := sum_map_erase (fun y : Candidate => if y.contract = x then 1 else 0) cands c hmem
    constructor
    · rw [hc2]
      unfold candCount
      simp only [] at her ⊢
      rw [if_pos hcx] at her ⊢
      omega
    · intro y hy hyx
      rw [hc2] at hy
      exact hnew y (List.mem_of_mem_erase hy) hyx
  · have hgc : (if c.contract = x then (1:ℕ) else 0) = 0 := if_neg hcx
    by_cases hact : c.action = Action.REDUCE
    · rw [if_pos hact] at hc2
      have hset := sum_map_set (fun y : Candidate => if y.contract = x then (1:ℕ) else 0)
        cands i ({ c with max_quantity := c.max_quantity - q } : Candidate) c g1
      by_cases hle : c.max_quantity - q ≤ 0
      · rw [if_pos hle] at hc2
        have hmemset : ({ c with max_quantity := c.max_quantity - q } : Candidate) ∈
            cands.set i ({ c with max_quantity := c.max_quantity - q } : Candidate) :=
          List.getElem?_mem (List.getElem?_set_eq_of_lt _ hilen)
        have her := sum_map_erase (fun y : Candidate => if y.contract = x then (1:ℕ) else 0)
          (cands.set i ({ c with max_quantity := c.max_quantity - q } : Candidate))
          ({ c with max_quantity := c.max_quantity - q } : Candidate) hmemset
        constructor
        · rw [hc2]
          unfold candCount
          simp only [] at hset her ⊢
          rw [if_neg hcx] at hset her ⊢
          omega
        · intro y hy hyx
          rw [hc2] at hy
          rcases List.mem_or_eq_of_mem_set (List.mem_of_mem_erase hy) with hy2 | rfl
          · exact hnew y hy2 hyx
          · exact absurd hyx hcx
      · rw [if_neg hle] at hc2
        constructor
        · rw [hc2]
          unfold candCount
          simp only [] at hset ⊢
          rw [if_neg hcx] at hset ⊢
          omega
        · intro y hy hyx
          rw [hc2] at hy
          rcases List.mem_or_eq_of_mem_set hy with hy2 | rfl
          · exact hnew y hy2 hyx
          · exact absurd hyx hcx
    · rw [if_neg hact] at hc2
      have her := sum_map_erase (fun y : Candidate => if y.contract = x then (1:ℕ) else 0) cands c hmem
      constructor
      · rw [hc2]
        unfold candCount
        simp only [] at her ⊢
        rw [if_neg hcx] at her ⊢
        omega
      · intro y hy hyx
        rw [hc2] at hy
        exact hnew y (List.mem_of_mem_erase hy) hyx

lemma hedgeLoop_uses (t : ℚ) (x : ℕ) :
    ∀ (fuel : ℕ) (r : ℚ) (cands : List Candidate) (acc : List (ℕ × ℚ)) (n : ℕ)
      (adjs : List (ℕ × ℚ)) (iters : ℕ) (rf : ℚ),
      (∀ y ∈ cands, y.contract = x → y.action = Action.NEW) →
      hedgeLoop t fuel r cands acc n = .ok adjs iters rf →
      usesOn adjs x ≤ usesOn acc x + candCount cands x := by
  intro fuel
  induction fuel with
  | zero =>
    intro r cands acc n adjs iters rf hnew h
    simp [hedgeLoop] at h
  | succ fuel ih =>
    intro r cands acc n adjs iters rf hnew h
    rcases hs : stepOnce t r cands with _ | _ | _ | ⟨i, c, q, r2, cands2⟩
    · rw [hedgeLoop_succ_done t fuel r cands acc n hs] at h
      obtain ⟨rfl, -, -⟩ : acc = adjs ∧ n = iters ∧ r = rf := by simpa using h
      omega
    · rw [hedgeLoop_succ_err t fuel r cands acc n hs] at h
      simp at h
    · rw [hedgeLoop_succ_noViable t fuel r cands acc n hs] at h
      obtain ⟨rfl, -, -⟩ : acc = adjs ∧ n + 1 = iters ∧ r = rf := by simpa using h
      omega
    · rw [hedgeLoop_succ_chosen t fuel r cands acc n i c q r2 cands2 hs] at h
      obtain ⟨hcnt, hnew2⟩ := chosen_candCount t r cands i c q r2 cands2 x hs hnew
      have hrec := ih r2 cands2
        (acc ++ [(c.contract, if c.action = Action.NEW then q else -q)]) (n + 1)
        adjs iters rf hnew2 h
      rw [usesOn_append] at hrec
      by_cases hcx : c.contract = x
      · rw [if_pos hcx] at hrec
        rw [if_pos hcx] at hcnt
        omega
      · rw [if_neg hcx] at hrec
        rw [if_neg hcx] at hcnt
        omega

lemma sum_single_of_nodup {M : Type} [AddCommMonoid M] (g : Candidate → M)
    (cands : List Candidate) (c0 : Candidate)
    (hnd : (cands.map (fun y => y.contract)).Nodup) (hc : c0 ∈ cands) :
    (cands.map (fun y => if y.contract = c0.contract then g y else 0)).sum = g c0 := by
  induction cands with
  | nil => cases hc
  | cons a l ih =>
    rw [List.map_cons, List.nodup_cons] at hnd
    obtain ⟨hna, hndl⟩ := hnd
    rcases List.mem_cons.mp hc with rfl | hcl
    · simp only [List.map_cons, List.sum_cons, if_pos rfl]
      have hz : (l.map (fun y => if y.contract = c0.contract then g y else 0)).sum = 0 := by
        refine List.sum_eq_zero ?_
        intro z hz
        obtain ⟨y, hyl, rfl⟩ := List.mem_map.mp hz
        have hne : y.contract ≠ c0.contract := by
          intro heq
          exact hna (heq ▸ List.mem_map.mpr ⟨y, hyl, rfl⟩)
        rw [if_neg hne]
      rw [hz, add_zero]
      simp
    · have hane : a.contract ≠ c0.contract := by
        intro heq
        exact hna (heq ▸ List.mem_map.mpr ⟨c0, hcl, rfl⟩)
      simp only [List.map_cons, List.sum_cons, if_neg hane]
      rw [ih hndl hcl, zero_add]

lemma buildReduceCandidates_spec :
    ∀ (ps : List PositionInfo) (l : List Candidate),
      buildReduceCandidates ps = some l →
      l.length = ps.length ∧ ∀ y ∈ l, y.action = Action.REDUCE := by
  intro ps
  induction ps with
  | nil =>
    intro l h
    obtain rfl : [] = l := by simpa [buildReduceCandidates] using h
    exact ⟨rfl, by simp⟩
  | cons p ps ih =>
    intro l h
    simp only [buildReduceCandidates] at h
    cases hp : reduceCandidate p with
    | none =>
      rw [hp] at h
      simp at h
    | some c =>
      rw [hp] at h
      cases hr : buildReduceCandidates ps with
      | none =>
        rw [hr] at h
        simp at h
      | some cs =>
        rw [hr] at h
        obtain rfl : c :: cs = l := by simpa using h
        obtain ⟨hlen, hall⟩ := ih cs hr
        refine ⟨by simp [hlen], ?_⟩
        intro y hy
        rcases List.mem_cons.mp hy with rfl | hy2
        · unfold reduceCandidate at hp
          by_cases hq : p.quantity = 0
          · rw [if_pos hq] at hp
            exact absurd hp (by simp)
          · rw [if_neg hq] at hp
            rw [← Option.some.inj hp]
        · exact hall y hy2

lemma buildCandidates_order (ps : List PositionInfo) (ch : List ChainRow)
    (l : List Candidate) (hb : buildCandidates ps ch = some l) :
    ∀ (k : ℕ) (ck : Candidate), l[k]? = some ck →
      (ck.action = Action.REDUCE ↔ k < ps.length) := by
  unfold buildCandidates at hb
  cases hr : buildReduceCandidates ps with
  | none =>
    rw [hr] at hb
    simp at hb
  | some l1 =>
    rw [hr] at hb
    obtain rfl : l1 ++ ch.map newCandidate = l := by simpa using hb
    obtain ⟨hlen, hall⟩ := buildReduceCandidates_spec ps l1 hr
    intro k ck hk
    rw [List.getElem?_append] at hk
    by_cases hkl : k < l1.length
    · rw [if_pos hkl] at hk
      have hmem : ck ∈ l1 := List.getElem?_mem hk
      exact ⟨fun _ => by omega, fun _ => hall ck hmem⟩
    · rw [if_neg hkl] at hk
      have hmem : ck ∈ ch.map newCandidate := List.getElem?_mem hk
      obtain ⟨row, -, rfl⟩ := List.mem_map.mp hmem
      constructor
      · intro hred
        exact absurd hred (fun hcon => Action.noConfusion hcon)
      · intro hkps
        exact absurd (by omega : k < l1.length) hkl

lemma abs_pyint_le (z : ℚ) : ((|pyint z| : ℤ) : ℚ) ≤ |z| := by
  unfold pyint
  split
  · rename_i hz
    rw [abs_of_nonneg (Int.floor_nonneg.mpr hz), abs_of_nonneg hz]
    exact_mod_cast Int.floor_le z
  · rename_i hz
    push_neg at hz
    have hc : ⌈z⌉ ≤ 0 := Int.ceil_le.mpr (by exact_mod_cast le_of_lt hz)
    rw [abs_of_nonpos hc, abs_of_neg hz]
    push_cast
    linarith [Int.le_ceil z]

lemma abs_sub_le_of_sign (r p : ℚ) (hsgn : 0 ≤ p * r) (hle : |p| ≤ |r|) :
    |r - p| ≤ |r| := by
  rcases le_or_lt 0 r with hr | hr
  · rw [abs_of_nonneg hr] at hle ⊢
    have hp0 : 0 ≤ p := by
      rcases le_or_lt 0 p with hp | hp
      · exact hp
      · have h1 : p * r ≤ 0 := mul_nonpos_of_nonpos_of_nonneg (le_of_lt hp) hr
        have h2 : p * r = 0 := le_antisymm h1 hsgn
        rcases mul_eq_zero.mp h2 with h3 | h3
        · exact le_of_eq h3.symm
        · rw [h3] at hle
          simp at hle
          linarith [abs_nonneg p, hle]
    have hple : p ≤ r := le_trans (le_abs_self p) hle
    rw [abs_of_nonneg (by linarith)]
    linarith
  · rw [abs_of_neg hr] at hle ⊢
    have hp0 : p ≤ 0 := by
      rcases le_or_lt p 0 with hp | hp
      · exact hp
      · have h1 : 0 ≤ p * r → False := by
          intro hcon
          nlinarith
        exact absurd hsgn h1
    have hple : r ≤ p := by
      rw [abs_of_nonpos hp0] at hle
      linarith
    rw [abs_of_nonpos (by linarith)]
    linarith

/-- C5, amended: an accepted iteration does not increase the remaining delta
magnitude whenever the selected candidate's delta impact points in the same
direction as the remaining delta (their product is nonnegative) and its
max_quantity is nonnegative; a candidate with opposing impact can strictly
increase it. -/
theorem stepOnce_same_sign_improves (t r : ℚ) (cands : List Candidate) (i : ℕ)
    (c : Candidate) (q r2 : ℚ) (cands2 : List Candidate)
    (h : stepOnce t r cands = .chosen i c q r2 cands2)
    (hsign : 0 ≤ r * c.delta_impact_per_unit)
    (hmax : 0 ≤ c.max_quantity) :
    |r2| ≤ |r| := by
  obtain ⟨hbest, hr2, -⟩ := stepOnce_chosen_inv t r cands i c q r2 cands2 h
  obtain ⟨-, g2, -, -, -⟩ := bestAdjustment_spec r cands i c q _ hbest
  obtain ⟨himp, hqmin⟩ := candQuantity_inv r c q g2
  have hq0 : 0 ≤ q := by
    rw [hqmin]
    exact le_min (by exact_mod_cast abs_nonneg _) hmax
  have himpos : 0 < |c.delta_impact_per_unit| := abs_pos.mpr himp
  have hqr : |q * c.delta_impact_per_unit| ≤ |r| := by
    have h1 : q ≤ |r / c.delta_impact_per_unit| :=
      le_trans (by rw [hqmin]; exact min_le_left _ _) (abs_pyint_le _)
    rw [abs_div] at h1
    rw [abs_mul, abs_of_nonneg hq0]
    calc q * |c.delta_impact_per_unit|
        ≤ (|r| / |c.delta_impact_per_unit|) * |c.delta_impact_per_unit| :=
          mul_le_mul_of_nonneg_right h1 (le_of_lt himpos)
      _ = |r| := div_mul_cancel₀ _ (ne_of_gt himpos)
  have hsgn : 0 ≤ (q * c.delta_impact_per_unit) * r := by
    have : (q * c.delta_impact_per_unit) * r = q * (r * c.delta_impact_per_unit) := by ring
    rw [this]
    exact mul_nonneg hq0 hsign
  rw [hr2]
  exact abs_sub_le_of_sign r (q * c.delta_impact_per_unit) hsgn hqr

lemma stepNewRun : stepOnce (1 / 50) (3 / 10) [⟨0, Action.NEW, 100, 1 / 10, 0⟩] =
    .chosen 0 ⟨0, Action.NEW, 100, 1 / 10, 0⟩ 3 0 [] := by
  norm_num [stepOnce, bestAdjustment, candQuantity, pyintEval, scoreOf, ceilEval,
    List.erase, abs_of_nonneg, abs_of_nonpos, newNeReduce]

lemma planNewRun : planAdjustments (-(3 / 10)) (1 / 50) [⟨0, Action.NEW, 100, 1 / 10, 0⟩] =
    .ok [(0, 3)] 1 0 := by
  have h2 : stepOnce (1 / 50) 0 ([] : List Candidate) = .done := by
    norm_num [stepOnce]
  have efuel : quantityMeasure [(⟨0, Action.NEW, 100, 1 / 10, 0⟩ : Candidate)] = 100 + 1 := by
    norm_num [quantityMeasure, ceilEval]
    try rfl
  unfold planAdjustments
  rw [efuel, show -(-(3 / 10) : ℚ) = 3 / 10 by norm_num,
    hedgeLoop_succ_chosen _ _ _ _ _ _ _ _ _ _ _ stepNewRun,
    show (100 + 1 : ℕ) = 99 + 1 + 1 from rfl,
    hedgeLoop_succ_done _ _ _ _ _ _ h2]
  norm_num

/-- C5, amended, at a concrete input: the accepted step from remaining delta
3/10 with a same-direction candidate ends at remaining delta 0. -/
theorem stepOnce_same_sign_improves_witness : |(0 : ℚ)| ≤ |(3 / 10 : ℚ)| :=
  stepOnce_same_sign_improves (1 / 50) (3 / 10) [⟨0, Action.NEW, 100, 1 / 10, 0⟩] 0
    ⟨0, Action.NEW, 100, 1 / 10, 0⟩ 3 0 [] stepNewRun (by norm_num) (by norm_num)

/-- C6, amended: the greedy loop body runs at most
quantityMeasure (initial candidates) + 1 times, where quantityMeasure sums
ceil(max_quantity) + 1 over the initial candidate set. -/
theorem planAdjustments_iter_bound (d t : ℚ) (cands : List Candidate)
    (adjs : List (ℕ × ℚ)) (iters : ℕ) (rf : ℚ)
    (h : planAdjustments d t cands = .ok adjs iters rf) :
    iters ≤ quantityMeasure cands + 1 := by
  unfold planAdjustments at h
  have hb := hedgeLoop_ok_iters t (quantityMeasure cands + 1) (-d) cands [] 0 adjs iters rf h
  omega

/-- C6, amended, at a concrete input. -/
theorem planAdjustments_iter_bound_witness :
    (1 : ℕ) ≤ quantityMeasure [(⟨0, Action.NEW, 100, 1 / 10, 0⟩ : Candidate)] + 1 :=
  planAdjustments_iter_bound (-(3 / 10)) (1 / 50) [⟨0, Action.NEW, 100, 1 / 10, 0⟩]
    [(0, 3)] 1 0 planNewRun

/-- C7: with pairwise distinct contract identities and nonnegative caps, the
total quantity magnitude the returned plan attributes to any one candidate
never exceeds that candidate's original max_quantity, and a NEW candidate
contributes at most one adjustment per call. -/
theorem planAdjustments_respects_caps (d t : ℚ) (cands : List Candidate) (c0 : Candidate)
    (adjs : List (ℕ × ℚ)) (iters : ℕ) (rf : ℚ)
    (hmax : ∀ y ∈ cands, 0 ≤ y.max_quantity)
    (hnd : (cands.map (fun y => y.contract)).Nodup)
    (hc0 : c0 ∈ cands)
    (h : planAdjustments d t cands = .ok adjs iters rf) :
    spentOn adjs c0.contract ≤ c0.max_quantity ∧
      (c0.action = Action.NEW → usesOn adjs c0.contract ≤ 1) := by
  unfold planAdjustments at h
  constructor
  · have hsp := hedgeLoop_spent t c0.contract (quantityMeasure cands + 1) (-d) cands [] 0
      adjs iters rf hmax h
    have hcap : capOn cands c0.contract = c0.max_quantity := by
      unfold capOn
      exact sum_single_of_nodup (fun y => y.max_quantity) cands c0 hnd hc0
    have hsp0 : spentOn [] c0.contract = 0 := rfl
    rw [hsp0, hcap, zero_add] at hsp
    exact hsp
  · intro hnew0
    have hhyp : ∀ y ∈ cands, y.contract = c0.contract → y.action = Action.NEW := by
      intro y hymem hyx
      have hy : y = c0 := List.inj_on_of_nodup_map hnd hymem hc0 hyx
      rw [hy]
      exact hnew0
    have hus := hedgeLoop_uses t c0.contract (quantityMeasure cands + 1) (-d) cands [] 0
      adjs iters rf hhyp h
    have hcnt : candCount cands c0.contract = 1 := by
      unfold candCount
      exact sum_single_of_nodup (fun _ => 1) cands c0 hnd hc0
    have hus0 : usesOn [] c0.contract = 0 := rfl
    rw [hus0, hcnt, zero_add] at hus
    exact hus

/-- C7, at a concrete input. -/
theorem planAdjustments_respects_caps_witness :
    spentOn [(0, 3)] ((⟨0, Action.NEW, 100, 1 / 10, 0⟩ : Candidate)).contract ≤
        ((⟨0, Action.NEW, 100, 1 / 10, 0⟩ : Candidate)).max_quantity ∧
      (((⟨0, Action.NEW, 100, 1 / 10, 0⟩ : Candidate)).action = Action.NEW →
        usesOn [(0, 3)] ((⟨0, Action.NEW, 100, 1 / 10, 0⟩ : Candidate)).contract ≤ 1) :=
  planAdjustments_respects_caps (-(3 / 10)) (1 / 50) [⟨0, Action.NEW, 100, 1 / 10, 0⟩]
    ⟨0, Action.NEW, 100, 1 / 10, 0⟩ [(0, 3)] 1 0
    (by
      intro y hy
      obtain rfl := List.mem_singleton.mp hy
      norm_num)
    (by simp)
    (List.mem_singleton.mpr rfl)
    planNewRun

/-- C2: the inner selection returns the first candidate attaining the minimum
of the score 2|remaining - q impact| + 3|q gamma| + 0.1 q over all
non-skipped candidates, and the candidate list is built with REDUCE
candidates from positions strictly before NEW candidates from the chain. -/
theorem bestAdjustment_minimizes (r : ℚ) (cands : List Candidate) (i : ℕ) (c : Candidate)
    (q s : ℚ) (h : bestAdjustment r cands = some (some (i, c, q, s))) :
    cands[i]? = some c ∧ candQuantity r c = some q ∧ q ≠ 0 ∧
      s = 2 * |r - q * c.delta_impact_per_unit| + 3 * |q * c.gamma_impact_per_unit|
        + (1 / 10) * q ∧
      (∀ (j : ℕ) (cj : Candidate) (qj : ℚ), cands[j]? = some cj →
        candQuantity r cj = some qj → qj ≠ 0 →
          s ≤ scoreOf r cj qj ∧ (j < i → s < scoreOf r cj qj)) ∧
      ∀ (ps : List PositionInfo) (ch : List ChainRow) (l : List Candidate),
        buildCandidates ps ch = some l →
        ∀ (k : ℕ) (ck : Candidate), l[k]? = some ck →
          (ck.action = Action.REDUCE ↔ k < ps.length) := by
  obtain ⟨g1, g2, g3, g4, g5⟩ := bestAdjustment_spec r cands i c q s h
  refine ⟨g1, g2, g3, ?_, g5, ?_⟩
  · rw [g4]
    unfold scoreOf
    ring
  · intro ps ch l hb
    exact buildCandidates_order ps ch l hb

lemma bestTwoRun : bestAdjustment (3 / 10)
    [⟨1, Action.REDUCE, 10, 1 / 10, 0⟩, ⟨2, Action.NEW, 100, 3 / 10, 0⟩] =
    some (some (1, ⟨2, Action.NEW, 100, 3 / 10, 0⟩, 1, 1 / 10)) := by
  norm_num [bestAdjustment, candQuantity, pyintEval, scoreOf, ceilEval,
    abs_of_nonneg, abs_of_nonpos]

/-- C2, at a concrete input. -/
theorem bestAdjustment_minimizes_witness :
    ([⟨1, Action.REDUCE, 10, 1 / 10, 0⟩,
        (⟨2, Action.NEW, 100, 3 / 10, 0⟩ : Candidate)])[1]? =
        some ⟨2, Action.NEW, 100, 3 / 10, 0⟩ ∧
      candQuantity (3 / 10) ⟨2, Action.NEW, 100, 3 / 10, 0⟩ = some 1 ∧ (1 : ℚ) ≠ 0 ∧
      (1 / 10 : ℚ) = 2 * |(3 / 10 : ℚ) - 1 *
          ((⟨2, Action.NEW, 100, 3 / 10, 0⟩ : Candidate)).delta_impact_per_unit|
        + 3 * |(1 : ℚ) * ((⟨2, Action.NEW, 100, 3 / 10, 0⟩ : Candidate)).gamma_impact_per_unit|
        + (1 / 10) * 1 ∧
      (∀ (j : ℕ) (cj : Candidate) (qj : ℚ),
        ([⟨1, Action.REDUCE, 10, 1 / 10, 0⟩,
          (⟨2, Action.NEW, 100, 3 / 10, 0⟩ : Candidate)])[j]? = some cj →
        candQuantity (3 / 10) cj = some qj → qj ≠ 0 →
          (1 / 10 : ℚ) ≤ scoreOf (3 / 10) cj qj ∧
            (j < 1 → (1 / 10 : ℚ) < scoreOf (3 / 10) cj qj)) ∧
      ∀ (ps : List PositionInfo) (ch : List ChainRow) (l : List Candidate),
        buildCandidates ps ch = some l →
        ∀ (k : ℕ) (ck : Candidate), l[k]? = some ck →
          (ck.action = Action.REDUCE ↔ k < ps.length) :=
  bestAdjustment_minimizes (3 / 10)
    [⟨1, Action.REDUCE, 10, 1 / 10, 0⟩, ⟨2, Action.NEW, 100, 3 / 10, 0⟩] 1
    ⟨2, Action.NEW, 100, 3 / 10, 0⟩ 1 (1 / 10) bestTwoRun

/-- C3, amended: every quantity the selection uses obeys
min(|trunc(remaining / impact)|, max_quantity) with truncation toward zero,
and a candidate whose computed quantity is 0 is never the selected one. -/
theorem bestAdjustment_quantity_rule (r : ℚ) (cands : List Candidate) (i : ℕ)
    (c : Candidate) (q s : ℚ)
    (h : bestAdjustment r cands = some (some (i, c, q, s))) :
    c.delta_impact_per_unit ≠ 0 ∧
      q = min ((|pyint (r / c.delta_impact_per_unit)| : ℤ) : ℚ) c.max_quantity ∧
      q ≠ 0 ∧
      (∀ cj : Candidate, cj.delta_impact_per_unit ≠ 0 →
        candQuantity r cj =
          some (min ((|pyint (r / cj.delta_impact_per_unit)| : ℤ) : ℚ) cj.max_quantity)) ∧
      ∀ (j : ℕ) (cj : Candidate), cands[j]? = some cj → candQuantity r cj = some 0 →
        j ≠ i := by
  obtain ⟨g1, g2, g3, -, -⟩ := bestAdjustment_spec r cands i c q s h
  obtain ⟨himp, hqmin⟩ := candQuantity_inv r c q g2
  refine ⟨himp, hqmin, g3, ?_, ?_⟩
  · intro cj hcj
    unfold candQuantity
    rw [if_neg hcj]
  · intro j cj hj hcj0 hji
    subst hji
    rw [g1] at hj
    obtain rfl : c = cj := Option.some.inj hj
    rw [g2] at hcj0
    exact g3 (Option.some.inj hcj0)

/-- C3, amended, at a concrete input. -/
theorem bestAdjustment_quantity_rule_witness :
    ((⟨2, Action.NEW, 100, 3 / 10, 0⟩ : Candidate)).delta_impact_per_unit ≠ 0 ∧
      (1 : ℚ) = min ((|pyint ((3 / 10) /
          ((⟨2, Action.NEW, 100, 3 / 10, 0⟩ : Candidate)).delta_impact_per_unit)| : ℤ) : ℚ)
        ((⟨2, Action.NEW, 100, 3 / 10, 0⟩ : Candidate)).max_quantity ∧
      (1 : ℚ) ≠ 0 ∧
      (∀ cj : Candidate, cj.delta_impact_per_unit ≠ 0 →
        candQuantity (3 / 10) cj =
          some (min ((|pyint ((3 / 10) / cj.delta_impact_per_unit)| : ℤ) : ℚ)
            cj.max_quantity)) ∧
      ∀ (j : ℕ) (cj : Candidate),
        ([⟨1, Action.REDUCE, 10, 1 / 10, 0⟩,
          (⟨2, Action.NEW, 100, 3 / 10, 0⟩ : Candidate)])[j]? = some cj →
        candQuantity (3 / 10) cj = some 0 → j ≠ 1 :=
  bestAdjustment_quantity_rule (3 / 10)
    [⟨1, Action.REDUCE, 10, 1 / 10, 0⟩, ⟨2, Action.NEW, 100, 3 / 10, 0⟩] 1
    ⟨2, Action.NEW, 100, 3 / 10, 0⟩ 1 (1 / 10) bestTwoRun

end DeltaHedger

